import Mathlib

/-!
Verification development for the `mergeDemo` repository's formula-handling
unit (`chemical/molecule.py`).

The Python code is shallowly embedded over `List Char`:

* `tokenizeF` embeds `Molecule._gettokens`, i.e. the left-to-right scan of
  `re.findall(r'[A-Z][a-z]*|\d+|\(|\)|\S', self)`: at each position, a
  maximal uppercase-then-lowercase run, else a maximal digit run, else a
  single parenthesis, else a single non-whitespace character; whitespace
  between matches is skipped.  The scan consumes at least one character per
  step, so fuel `length + 1` is always sufficient; `gettokens` applies it.
* `findGroupsF` embeds the `re.findall(r'(\([^)]*\)|[A-Z][a-z]*)(\d*)', target)`
  scan inside `Molecule._tokentree`: a parenthesized run `\([^)]*\)` extends
  only to the FIRST closing parenthesis (the character class excludes `)`),
  and fails (the scanner advances one position) when no `)` follows; the
  group payload is stored already stripped of its delimiters (the Python
  code strips them at the use site with `treetuple[0][1:-1]`).
* `buildF` embeds the recursion of `Molecule._tokentree`.  The Python guard
  `if not target: target = self` resets an EMPTY recursion target (not just
  the `None` default) to the whole formula, so the recursion genuinely
  diverges on inputs containing an empty parenthesized group; `buildF` is
  therefore indexed by fuel and returns `none` exactly when the Python
  recursion never returns (a `RecursionError`).  `tokentree` runs it with
  fuel `length + 1`, which suffices for every terminating case because each
  nonempty recursion target is at least two characters shorter.
* Python exceptions are embedded as `Except PyErr`; `ValueError`,
  `KeyError` and `RecursionError` are the `PyErr` constructors.
* Atomic masses are embedded as exact rationals carrying the decimal
  literals of the `_atomic_mass` dictionary.

Character classes follow the ASCII semantics of the regex classes
`[A-Z]`, `[a-z]`, `\d`, `\S` on the formula alphabet.
-/

def isUpperA (c : Char) : Bool := 65 ≤ c.toNat && c.toNat ≤ 90

def isLowerA (c : Char) : Bool := 97 ≤ c.toNat && c.toNat ≤ 122

def isDigitA (c : Char) : Bool := 48 ≤ c.toNat && c.toNat ≤ 57

/-- Python `str.isspace` on the characters `\s` skips between regex matches. -/
def isSpaceA (c : Char) : Bool :=
  c.toNat = 32 || (9 ≤ c.toNat && c.toNat ≤ 13)

/-- Python `str.isalpha`, restricted to ASCII letters. -/
def isAlphaA (c : Char) : Bool := isUpperA c || isLowerA c

/-- Fuel-indexed embedding of `Molecule._gettokens`; one unit of fuel per
scanning step, each step consuming at least one character. -/
def tokenizeF : Nat → List Char → List (List Char)
  | 0, _ => []
  | _ + 1, [] => []
  | n + 1, c :: cs =>
    if isUpperA c then
      (c :: cs.takeWhile isLowerA) :: tokenizeF n (cs.dropWhile isLowerA)
    else if isDigitA c then
      (c :: cs.takeWhile isDigitA) :: tokenizeF n (cs.dropWhile isDigitA)
    else if c = '(' then
      [c] :: tokenizeF n cs
    else if c = ')' then
      [c] :: tokenizeF n cs
    else if isSpaceA c then
      tokenizeF n cs
    else
      [c] :: tokenizeF n cs

/-- `Molecule._gettokens`: tokenize the whole formula. -/
def gettokens (self : List Char) : List (List Char) :=
  tokenizeF (self.length + 1) self

-- the atomic mass dictionary `_atomic_mass`, masses as exact rationals
def atomic_mass : List (List Char × ℚ) := [
  (['H'], (1.0079 : ℚ)),
  (['H','e'], (4.0026 : ℚ)),
  (['L','i'], (6.941 : ℚ)),
  (['B','e'], (9.0122 : ℚ)),
  (['B'], (10.811 : ℚ)),
  (['C'], (12.011 : ℚ)),
  (['N'], (14.007 : ℚ)),
  (['O'], (15.999 : ℚ)),
  (['F'], (18.998 : ℚ)),
  (['N','e'], (20.180 : ℚ)),
  (['N','a'], (22.990 : ℚ)),
  (['M','g'], (24.305 : ℚ)),
  (['A','l'], (26.982 : ℚ)),
  (['S','i'], (28.086 : ℚ)),
  (['P'], (30.974 : ℚ)),
  (['S'], (32.065 : ℚ)),
  (['C','l'], (35.453 : ℚ)),
  (['A','r'], (39.948 : ℚ)),
  (['K'], (39.098 : ℚ)),
  (['C','a'], (40.078 : ℚ)),
  (['S','c'], (44.956 : ℚ)),
  (['T','i'], (47.867 : ℚ)),
  (['V'], (50.942 : ℚ)),
  (['C','r'], (51.996 : ℚ)),
  (['M','n'], (54.938 : ℚ)),
  (['F','e'], (55.845 : ℚ)),
  (['C','o'], (58.933 : ℚ)),
  (['N','i'], (58.693 : ℚ)),
  (['C','u'], (63.546 : ℚ)),
  (['Z','n'], (65.39 : ℚ)),
  (['G','a'], (69.723 : ℚ)),
  (['G','e'], (72.61 : ℚ)),
  (['A','s'], (74.922 : ℚ)),
  (['S','e'], (78.96 : ℚ)),
  (['B','r'], (79.904 : ℚ)),
  (['K','r'], (83.80 : ℚ)),
  (['R','b'], (85.468 : ℚ)),
  (['S','r'], (87.62 : ℚ)),
  (['Y'], (88.906 : ℚ)),
  (['Z','r'], (91.224 : ℚ)),
  (['N','b'], (92.906 : ℚ)),
  (['M','o'], (95.94 : ℚ)),
  (['T','c'], (97.61 : ℚ)),
  (['R','u'], (101.07 : ℚ)),
  (['R','h'], (102.91 : ℚ)),
  (['P','d'], (106.42 : ℚ)),
  (['A','g'], (107.87 : ℚ)),
  (['C','d'], (112.41 : ℚ)),
  (['I','n'], (114.82 : ℚ)),
  (['S','n'], (118.71 : ℚ)),
  (['S','b'], (121.76 : ℚ)),
  (['T','e'], (127.60 : ℚ)),
  (['I'], (126.90 : ℚ)),
  (['X','e'], (131.29 : ℚ)),
  (['C','s'], (132.91 : ℚ)),
  (['B','a'], (137.33 : ℚ)),
  (['L','a'], (138.91 : ℚ)),
  (['C','e'], (140.12 : ℚ)),
  (['P','r'], (140.91 : ℚ)),
  (['N','d'], (144.24 : ℚ)),
  (['P','m'], (145.0 : ℚ)),
  (['S','m'], (150.36 : ℚ)),
  (['E','u'], (151.96 : ℚ)),
  (['G','d'], (157.25 : ℚ)),
  (['T','b'], (158.93 : ℚ)),
  (['D','y'], (162.50 : ℚ)),
  (['H','o'], (164.93 : ℚ)),
  (['E','r'], (167.26 : ℚ)),
  (['T','m'], (168.93 : ℚ)),
  (['Y','b'], (173.04 : ℚ)),
  (['L','u'], (174.97 : ℚ)),
  (['H','f'], (178.49 : ℚ)),
  (['T','a'], (180.95 : ℚ)),
  (['W'], (183.84 : ℚ)),
  (['R','e'], (186.21 : ℚ)),
  (['O','s'], (190.23 : ℚ)),
  (['I','r'], (192.22 : ℚ)),
  (['P','t'], (196.08 : ℚ)),
  (['A','u'], (196.08 : ℚ)),
  (['H','g'], (200.59 : ℚ)),
  (['T','l'], (204.38 : ℚ)),
  (['P','b'], (207.2 : ℚ)),
  (['B','i'], (208.98 : ℚ)),
  (['P','o'], (209.0 : ℚ)),
  (['A','t'], (210.0 : ℚ)),
  (['R','n'], (222.0 : ℚ)),
  (['F','r'], (223.0 : ℚ)),
  (['R','a'], (226.0 : ℚ)),
  (['A','c'], (227.0 : ℚ)),
  (['T','h'], (232.04 : ℚ)),
  (['P','a'], (231.04 : ℚ)),
  (['U'], (238.03 : ℚ)),
  (['N','p'], (237.0 : ℚ)),
  (['P','u'], (244.0 : ℚ)),
  (['A','m'], (243.0 : ℚ)),
  (['C','m'], (247.0 : ℚ)),
  (['B','k'], (247.0 : ℚ)),
  (['C','f'], (251.0 : ℚ)),
  (['E','s'], (252.0 : ℚ)),
  (['F','m'], (257.0 : ℚ)),
  (['M','d'], (258.0 : ℚ)),
  (['N','o'], (259.0 : ℚ)),
  (['L','r'], (262.0 : ℚ)),
  (['R','f'], (261.0 : ℚ)),
  (['D','b'], (262.0 : ℚ)),
  (['S','g'], (266.0 : ℚ)),
  (['B','h'], (264.0 : ℚ)),
  (['H','s'], (269.0 : ℚ)),
  (['M','t'], (268.0 : ℚ))
]

/-- Python `sym in _atomic_mass` (dictionary key membership). -/
def inTable (s : List Char) : Bool := (atomic_mass.lookup s).isSome

/-- Python `_atomic_mass[sym]` (dictionary access). -/
def tableMass (s : List Char) : Option ℚ := atomic_mass.lookup s

/-- Python's substring operator `sub in s` on strings. -/
def isSubstrOf : List Char → List Char → Bool
  | sub, [] => sub.isEmpty
  | sub, s@(_ :: t) => sub.isPrefixOf s || isSubstrOf sub t

-- the raw pairs produced by `re.findall(r'(\([^)]*\)|[A-Z][a-z]*)(\d*)', target)`:
-- a parenthesized run (delimiters stripped) or a symbol, with its digit run
inductive RawTok where
  | group : List Char → RawTok
  | sym : List Char → RawTok
deriving DecidableEq

/-- The token-tree of `Molecule._tokentree`: the Python list of tuples
`(symbol, n)` / `(subtree, n)` fused into one inductive, `nil` for the empty
list and `sym`/`grp` for a leading symbol or group node with its tail. -/
inductive FTree where
  | nil : FTree
  | sym : List Char → Nat → FTree → FTree
  | grp : FTree → Nat → FTree → FTree
deriving DecidableEq

/-- `numfor` inside `_tokensubtree`: `1 if s == '' else int(s)`. -/
def numfor (ds : List Char) : Nat :=
  if ds = [] then 1 else ds.foldl (fun a c => a * 10 + (c.toNat - 48)) 0

/-- Fuel-indexed embedding of the `re.findall` scan in `Molecule._tokentree`:
`(\([^)]*\)|[A-Z][a-z]*)(\d*)`.  At `(` the match runs to the first `)`
(there is none inside `[^)]*`) and fails if no `)` follows, in which case the
scanner advances one position; an uppercase letter starts a symbol; `(\d*)`
takes the digit run after either.  Fuel `length + 1` always suffices. -/
def findGroupsF : Nat → List Char → List (RawTok × List Char)
  | 0, _ => []
  | _ + 1, [] => []
  | n + 1, c :: cs =>
    if c = '(' then
      -- the characters after `(` up to the first `)`; if that `)` is missing
      -- (`dropWhile` exhausts `cs`) the alternative fails and the scan
      -- advances one position, else the group and its digit run are taken
      if (cs.dropWhile (· ≠ ')')).isEmpty then
        findGroupsF n cs
      else
        (RawTok.group (cs.takeWhile (· ≠ ')')),
          ((cs.dropWhile (· ≠ ')')).tail).takeWhile isDigitA)
          :: findGroupsF n (((cs.dropWhile (· ≠ ')')).tail).dropWhile isDigitA)
    else if isUpperA c then
      (RawTok.sym (c :: cs.takeWhile isLowerA),
        (cs.dropWhile isLowerA).takeWhile isDigitA)
        :: findGroupsF n ((cs.dropWhile isLowerA).dropWhile isDigitA)
    else
      findGroupsF n cs

/-- The `re.findall` scan of `Molecule._tokentree` on a whole string. -/
def findGroups (target : List Char) : List (RawTok × List Char) :=
  findGroupsF (target.length + 1) target

/-- `map(_tokensubtree, reslist)` over the raw pairs, with `r` the recursive
call `self._tokentree(treetuple[0][1:-1])` used for group pairs. -/
def buildNodes (r : List Char → Option FTree) :
    List (RawTok × List Char) → Option FTree
  | [] => some .nil
  | (.sym s, ds) :: rest => (buildNodes r rest).map (FTree.sym s (numfor ds))
  | (.group inner, ds) :: rest =>
    match r inner with
    | none => none
    | some sub => (buildNodes r rest).map (FTree.grp sub (numfor ds))

/-- Fuel-indexed embedding of the recursion of `Molecule._tokentree`:
`if not target: target = self` resets an empty target to the whole formula,
then the raw pairs are scanned and mapped, recursing on each group's
content.  `none` means the fuel ran out, i.e. the Python recursion did not
return within that depth. -/
def buildF (self : List Char) : Nat → List Char → Option FTree
  | 0, _ => none
  | n + 1, target =>
    buildNodes (buildF self n)
      (findGroups (if target = [] then self else target))

/-- `Molecule._tokentree()` with its default argument: parse the formula.
Fuel `length + 1` suffices for every terminating recursion (each nonempty
recursion target is at least two characters shorter than its parent), so
`none` is returned exactly when the Python recursion diverges
(`RecursionError`). -/
def tokentree (self : List Char) : Option FTree :=
  buildF self (self.length + 1) self

-- Python exceptions raised by the unit
inductive PyErr where
  | valueError : List Char → PyErr
  | keyError : List Char → PyErr
  | recursionError : PyErr
deriving DecidableEq

namespace Molecule

/-- `Molecule._is_valid`: parentheses (via the substring test `sym in "()"`)
and digit runs are valid; a non-alphabetic token raises `ValueError`; an
alphabetic token outside the mass table raises `KeyError`. -/
def is_valid (sym : List Char) : Except PyErr Bool :=
  if isSubstrOf sym ['(', ')'] then .ok true
  else if !sym.isEmpty && sym.all isDigitA then .ok true
  else if !(!sym.isEmpty && sym.all isAlphaA) then
    .error (.valueError (String.toList "bad symbol " ++ sym))
  else if !inTable sym then
    .error (.keyError (String.toList "bad symbol " ++ sym))
  else .ok true

/-- The loop body of `Molecule.check_symbols` over the token list: the first
exception out of `_is_valid` propagates; a `False` return would raise
`ValueError` (`_is_valid` never returns `False`, matching the source). -/
def check_tokens : List (List Char) → Except PyErr Bool
  | [] => .ok true
  | t :: ts =>
    match is_valid t with
    | .error e => .error e
    | .ok v =>
      if v then check_tokens ts
      else .error (.valueError (String.toList "bad symbol " ++ t))

/-- `Molecule.check_symbols`. -/
def check_symbols (self : List Char) : Except PyErr Bool :=
  check_tokens (gettokens self)

/-- The filter of `Molecule.clean_copy`: keep a token when `_is_valid` does
not raise (the `try`/`except`/`else` around `self._is_valid(s)`). -/
def keepTok (t : List Char) : Bool :=
  match is_valid t with
  | .ok _ => true
  | .error _ => false

/-- `"".join` of the surviving tokens. -/
def joinToks : List (List Char) → List Char
  | [] => []
  | t :: ts => t ++ joinToks ts

/-- `Molecule.clean_copy`: tokenize, keep the tokens `_is_valid` accepts,
concatenate. -/
def clean_copy (self : List Char) : List Char :=
  joinToks ((gettokens self).filter keepTok)

/-- `Molecule._tree_mass`: `sum(map(token_mass, tree))`, a leaf contributing
its table mass times its count (raising `KeyError` off the table), a group
contributing its recursive mass times its count. -/
def tree_mass : FTree → Except PyErr ℚ
  | .nil => .ok 0
  | .sym s n rest =>
    match tableMass s with
    | none => .error (.keyError (String.toList "not an atomic symbol " ++ s))
    | some m =>
      match tree_mass rest with
      | .error e => .error e
      | .ok r => .ok (m * (n : ℚ) + r)
  | .grp sub n rest =>
    match tree_mass sub with
    | .error e => .error e
    | .ok m =>
      match tree_mass rest with
      | .error e => .error e
      | .ok r => .ok (m * (n : ℚ) + r)

/-- `Molecule.mass`: `self.check_symbols()` then
`self._tree_mass(self._tokentree())`. -/
def mass (self : List Char) : Except PyErr ℚ :=
  match check_symbols self with
  | .error e => .error e
  | .ok _ =>
    match tokentree self with
    | none => .error .recursionError
    | some t => tree_mass t

/-- `Molecule._tree_count`: count occurrences of `symbol` in a token tree; a
leaf off the table raises `KeyError`, a matching leaf contributes its count,
a group its recursive count times its count. -/
def tree_count (symbol : List Char) : FTree → Except PyErr Nat
  | .nil => .ok 0
  | .sym s n rest =>
    if !inTable s then
      .error (.keyError (String.toList "not an atomic symbol " ++ s))
    else
      match tree_count symbol rest with
      | .error e => .error e
      | .ok r => .ok ((if s = symbol then n else 0) + r)
  | .grp sub n rest =>
    match tree_count symbol sub with
    | .error e => .error e
    | .ok m =>
      match tree_count symbol rest with
      | .error e => .error e
      | .ok r => .ok (m * n + r)

/-- `Molecule.atoms`: reject a query symbol outside the table with
`KeyError`, else count it in the freshly built token tree. -/
def atoms (self : List Char) (symbol : List Char) : Except PyErr Nat :=
  if !inTable symbol then .error (.keyError (String.toList "not in periodic table"))
  else
    match tokentree self with
    | none => .error .recursionError
    | some t => tree_count symbol t

/-- Lexicographic order on token text, as Python string comparison. -/
def lexLe : List Char → List Char → Bool
  | [], _ => true
  | _ :: _, [] => false
  | a :: as, b :: bs =>
    if a.toNat < b.toNat then true
    else if b.toNat < a.toNat then false
    else lexLe as bs

def insertSorted (a : List Char) : List (List Char) → List (List Char)
  | [] => [a]
  | b :: l => if lexLe a b then a :: b :: l else b :: insertSorted a l

/-- Python `sorted(list(atomset))`. -/
def sortToks (l : List (List Char)) : List (List Char) :=
  l.foldr insertSorted []

/-- The successive `__next__` calls of the `atomiter`: each element of the
sorted atom set paired with `self.atoms(my_atom)`. -/
def mapCounts (self : List Char) :
    List (List Char) → Except PyErr (List (List Char × Nat))
  | [] => .ok []
  | a :: rest =>
    match atoms self a with
    | .error e => .error e
    | .ok n => (mapCounts self rest).map ((a, n) :: ·)

/-- `Molecule.__iter__` run to exhaustion: the set of tokens that are table
keys, sorted, each paired with its `atoms` count (the iterator also builds
`self._tokentree()` up front, so a diverging parse surfaces here too). -/
def iterElems (self : List Char) : Except PyErr (List (List Char × Nat)) :=
  match tokentree self with
  | none => .error .recursionError
  | some _ =>
    mapCounts self
      (sortToks (((gettokens self).filter (fun t => inTable t)).dedup))

end Molecule

deriving instance DecidableEq for Except

-- ## Character-class and list helper lemmas

theorem upper_not_lower {c : Char} (h : isUpperA c = true) : isLowerA c = false := by
  cases hb : isLowerA c
  · rfl
  · exfalso
    simp only [isUpperA, Bool.and_eq_true, decide_eq_true_eq] at h
    simp only [isLowerA, Bool.and_eq_true, decide_eq_true_eq] at hb
    omega

theorem upper_not_digit {c : Char} (h : isUpperA c = true) : isDigitA c = false := by
  cases hb : isDigitA c
  · rfl
  · exfalso
    simp only [isUpperA, Bool.and_eq_true, decide_eq_true_eq] at h
    simp only [isDigitA, Bool.and_eq_true, decide_eq_true_eq] at hb
    omega

theorem digit_not_upper {c : Char} (h : isDigitA c = true) : isUpperA c = false := by
  cases hb : isUpperA c
  · rfl
  · exfalso
    simp only [isDigitA, Bool.and_eq_true, decide_eq_true_eq] at h
    simp only [isUpperA, Bool.and_eq_true, decide_eq_true_eq] at hb
    omega

theorem digit_not_lower {c : Char} (h : isDigitA c = true) : isLowerA c = false := by
  cases hb : isLowerA c
  · rfl
  · exfalso
    simp only [isDigitA, Bool.and_eq_true, decide_eq_true_eq] at h
    simp only [isLowerA, Bool.and_eq_true, decide_eq_true_eq] at hb
    omega

theorem dropWhile_len_le (p : Char → Bool) :
    ∀ l : List Char, (l.dropWhile p).length ≤ l.length
  | [] => le_refl _
  | c :: cs => by
    by_cases h : p c = true
    · rw [List.dropWhile_cons_of_pos h]
      exact le_trans (dropWhile_len_le p cs) (Nat.le_succ _)
    · rw [List.dropWhile_cons_of_neg (by simp [h])]

-- ## Fuel stability of the tokenizer and its unfolding equations

theorem tokenizeF_stable : ∀ (k n : Nat) (cs : List Char), cs.length < n → n ≤ k →
    tokenizeF n cs = gettokens cs := by
  intro k
  induction k with
  | zero => intro n cs h1 h2; omega
  | succ k ih =>
    intro n cs h1 h2
    match n, cs with
    | n + 1, [] => rfl
    | n + 1, c :: cs =>
      have hcs : cs.length < n := by simp at h1; omega
      have hnk : n ≤ k := by omega
      have step : ∀ rest : List Char, rest.length ≤ cs.length →
          tokenizeF n rest = gettokens rest ∧
            tokenizeF (cs.length + 1) rest = gettokens rest := by
        intro rest hr
        exact ⟨ih n rest (by omega) hnk, ih (cs.length + 1) rest (by omega) (by omega)⟩
      show tokenizeF (n + 1) (c :: cs) = tokenizeF (cs.length + 1 + 1) (c :: cs)
      by_cases hu : isUpperA c = true
      · have h := step (cs.dropWhile isLowerA) (dropWhile_len_le _ _)
        simp [tokenizeF, hu, h.1, h.2]
      · by_cases hd : isDigitA c = true
        · have h := step (cs.dropWhile isDigitA) (dropWhile_len_le _ _)
          simp [tokenizeF, hu, hd, h.1, h.2]
        · have h := step cs (le_refl _)
          by_cases hl : c = '('
          · subst hl
            simp [tokenizeF, (by decide : isUpperA '(' = false),
              (by decide : isDigitA '(' = false), h.1, h.2]
          · by_cases hr : c = ')'
            · subst hr
              simp [tokenizeF, (by decide : isUpperA ')' = false),
                (by decide : isDigitA ')' = false), hl, h.1, h.2]
            · by_cases hsp : isSpaceA c = true
              · simp [tokenizeF, hu, hd, hl, hr, hsp, h.1, h.2]
              · simp [tokenizeF, hu, hd, hl, hr, hsp, h.1, h.2]

theorem gettokens_nil : gettokens [] = [] := rfl

theorem gettokens_cons_upper {c : Char} (cs : List Char) (hu : isUpperA c = true) :
    gettokens (c :: cs) =
      (c :: cs.takeWhile isLowerA) :: gettokens (cs.dropWhile isLowerA) := by
  have h := tokenizeF_stable (cs.length + 1) (cs.length + 1) (cs.dropWhile isLowerA)
    (by have := dropWhile_len_le isLowerA cs; omega) (le_refl _)
  show tokenizeF (cs.length + 1 + 1) (c :: cs) = _
  simp [tokenizeF, hu, h]

theorem gettokens_cons_digit {c : Char} (cs : List Char) (hd : isDigitA c = true) :
    gettokens (c :: cs) =
      (c :: cs.takeWhile isDigitA) :: gettokens (cs.dropWhile isDigitA) := by
  have h := tokenizeF_stable (cs.length + 1) (cs.length + 1) (cs.dropWhile isDigitA)
    (by have := dropWhile_len_le isDigitA cs; omega) (le_refl _)
  show tokenizeF (cs.length + 1 + 1) (c :: cs) = _
  simp [tokenizeF, digit_not_upper hd, hd, h]

theorem gettokens_cons_lparen (cs : List Char) :
    gettokens ('(' :: cs) = ['('] :: gettokens cs := by
  have h := tokenizeF_stable (cs.length + 1) (cs.length + 1) cs (by omega) (le_refl _)
  show tokenizeF (cs.length + 1 + 1) ('(' :: cs) = _
  simp [tokenizeF, (by decide : isUpperA '(' = false),
    (by decide : isDigitA '(' = false), h]

theorem gettokens_cons_rparen (cs : List Char) :
    gettokens (')' :: cs) = [')'] :: gettokens cs := by
  have h := tokenizeF_stable (cs.length + 1) (cs.length + 1) cs (by omega) (le_refl _)
  show tokenizeF (cs.length + 1 + 1) (')' :: cs) = _
  simp [tokenizeF, (by decide : isUpperA ')' = false),
    (by decide : isDigitA ')' = false), (by decide : ¬ (')' = '(')), h]

-- ## Fuel stability of the group scanner and its unfolding equation

theorem findGroupsF_stable : ∀ (k n : Nat) (cs : List Char), cs.length < n → n ≤ k →
    findGroupsF n cs = findGroups cs := by
  intro k
  induction k with
  | zero => intro n cs h1 h2; omega
  | succ k ih =>
    intro n cs h1 h2
    match n, cs with
    | n + 1, [] => rfl
    | n + 1, c :: cs =>
      have hcs : cs.length < n := by simp at h1; omega
      have hnk : n ≤ k := by omega
      have step : ∀ rest : List Char, rest.length ≤ cs.length →
          findGroupsF n rest = findGroups rest ∧
            findGroupsF (cs.length + 1) rest = findGroups rest := by
        intro rest hr
        exact ⟨ih n rest (by omega) hnk, ih (cs.length + 1) rest (by omega) (by omega)⟩
      have hlen1 : (((cs.dropWhile (· ≠ ')')).tail).dropWhile isDigitA).length ≤
          cs.length := by
        have t1 := dropWhile_len_le (· ≠ ')') cs
        have t2 := dropWhile_len_le isDigitA ((cs.dropWhile (· ≠ ')')).tail)
        have t3 : ((cs.dropWhile (· ≠ ')')).tail).length =
            (cs.dropWhile (· ≠ ')')).length - 1 := by simp
        omega
      have hlen2 : ((cs.dropWhile isLowerA).dropWhile isDigitA).length ≤ cs.length :=
        le_trans (dropWhile_len_le _ _) (dropWhile_len_le _ _)
      show findGroupsF (n + 1) (c :: cs) = findGroupsF (cs.length + 1 + 1) (c :: cs)
      simp only [findGroupsF]
      split_ifs
      · rw [(step cs (le_refl _)).1, (step cs (le_refl _)).2]
      · rw [(step _ hlen1).1, (step _ hlen1).2]
      · rw [(step _ hlen2).1, (step _ hlen2).2]
      · rw [(step cs (le_refl _)).1, (step cs (le_refl _)).2]

theorem findGroups_cons_lparen (cs : List Char)
    (h : ((cs.dropWhile (· ≠ ')')).isEmpty) = false) :
    findGroups ('(' :: cs) =
      (RawTok.group (cs.takeWhile (· ≠ ')')),
        ((cs.dropWhile (· ≠ ')')).tail).takeWhile isDigitA)
        :: findGroups (((cs.dropWhile (· ≠ ')')).tail).dropWhile isDigitA) := by
  have hlen : (((cs.dropWhile (· ≠ ')')).tail).dropWhile isDigitA).length ≤ cs.length := by
    have t1 := dropWhile_len_le (· ≠ ')') cs
    have t2 := dropWhile_len_le isDigitA ((cs.dropWhile (· ≠ ')')).tail)
    have t3 : ((cs.dropWhile (· ≠ ')')).tail).length =
        (cs.dropWhile (· ≠ ')')).length - 1 := by simp
    omega
  have hst := findGroupsF_stable (cs.length + 1) (cs.length + 1)
    (((cs.dropWhile (· ≠ ')')).tail).dropWhile isDigitA) (by omega) (le_refl _)
  show findGroupsF (cs.length + 1 + 1) ('(' :: cs) = _
  simp only [findGroupsF]
  rw [if_pos trivial, if_neg (by rw [h]; simp), hst]

-- ## Shape of the tokens produced by the tokenizer

theorem tokenizeF_shape : ∀ (n : Nat) (cs t : List Char),
    t ∈ tokenizeF n cs → t ≠ [] ∧ t ≠ ['(', ')'] := by
  intro n
  induction n with
  | zero => intro cs t h; simp [tokenizeF] at h
  | succ n ih =>
    intro cs t h
    match cs with
    | [] => simp [tokenizeF] at h
    | c :: cs =>
      by_cases hu : isUpperA c = true
      · rw [show tokenizeF (n + 1) (c :: cs) =
            (c :: cs.takeWhile isLowerA) :: tokenizeF n (cs.dropWhile isLowerA) from by
          simp [tokenizeF, hu]] at h
        rcases List.mem_cons.1 h with rfl | hm
        · refine ⟨by simp, fun he => ?_⟩
          rw [List.cons.injEq] at he
          rw [he.1] at hu
          exact absurd hu (by decide)
        · exact ih _ _ hm
      · by_cases hd : isDigitA c = true
        · rw [show tokenizeF (n + 1) (c :: cs) =
              (c :: cs.takeWhile isDigitA) :: tokenizeF n (cs.dropWhile isDigitA) from by
            simp [tokenizeF, hu, hd]] at h
          rcases List.mem_cons.1 h with rfl | hm
          · refine ⟨by simp, fun he => ?_⟩
            rw [List.cons.injEq] at he
            rw [he.1] at hd
            exact absurd hd (by decide)
          · exact ih _ _ hm
        · by_cases hl : c = '('
          · subst hl
            rw [show tokenizeF (n + 1) ('(' :: cs) = ['('] :: tokenizeF n cs from by
              simp [tokenizeF, (by decide : isUpperA '(' = false),
                (by decide : isDigitA '(' = false)]] at h
            rcases List.mem_cons.1 h with rfl | hm
            · exact ⟨by simp, by decide⟩
            · exact ih _ _ hm
          · by_cases hr : c = ')'
            · subst hr
              rw [show tokenizeF (n + 1) (')' :: cs) = [')'] :: tokenizeF n cs from by
                simp [tokenizeF, (by decide : isUpperA ')' = false),
                  (by decide : isDigitA ')' = false), hl]] at h
              rcases List.mem_cons.1 h with rfl | hm
              · exact ⟨by simp, by decide⟩
              · exact ih _ _ hm
            · by_cases hsp : isSpaceA c = true
              · rw [show tokenizeF (n + 1) (c :: cs) = tokenizeF n cs from by
                  simp [tokenizeF, hu, hd, hl, hr, hsp]] at h
                exact ih _ _ h
              · rw [show tokenizeF (n + 1) (c :: cs) = [c] :: tokenizeF n cs from by
                  simp [tokenizeF, hu, hd, hl, hr, hsp]] at h
                rcases List.mem_cons.1 h with rfl | hm
                · refine ⟨by simp, fun he => by simp [List.cons.injEq] at he⟩
                · exact ih _ _ hm

theorem gettokens_shape {f t : List Char} (h : t ∈ gettokens f) :
    t ≠ [] ∧ t ≠ ['(', ')'] :=
  tokenizeF_shape _ _ _ h

-- ## The substring test against the two-character string of parentheses

theorem substr_parens_cases (t : List Char) (h : isSubstrOf t ['(', ')'] = true) :
    t = [] ∨ t = ['('] ∨ t = [')'] ∨ t = ['(', ')'] := by
  match t with
  | [] => exact Or.inl rfl
  | [a] =>
    simp [isSubstrOf, List.isPrefixOf] at h
    rcases h with rfl | rfl
    · exact Or.inr (Or.inl rfl)
    · exact Or.inr (Or.inr (Or.inl rfl))
  | [a, b] =>
    simp [isSubstrOf, List.isPrefixOf] at h
    obtain ⟨rfl, rfl⟩ := h
    exact Or.inr (Or.inr (Or.inr rfl))
  | a :: b :: c :: t2 =>
    simp [isSubstrOf, List.isPrefixOf] at h

-- ## Every key of the mass table is an uppercase letter plus lowercase letters

def shapeB : List Char → Bool
  | [] => false
  | u :: ls => isUpperA u && ls.all isLowerA

theorem lookup_mem : ∀ (l : List (List Char × ℚ)) (a : List Char),
    (l.lookup a).isSome = true → a ∈ l.map Prod.fst := by
  intro l a
  induction l with
  | nil => intro h; simp [List.lookup] at h
  | cons p l ih =>
    intro h
    obtain ⟨k, v⟩ := p
    by_cases hk : (a == k) = true
    · simp [eq_of_beq hk]
    · have hk' : (a == k) = false := by
        cases hbe : (a == k)
        · rfl
        · exact absurd hbe hk
      rw [List.lookup, hk'] at h
      exact List.mem_cons_of_mem _ (ih h)

theorem table_shape {t : List Char} (h : inTable t = true) : shapeB t = true := by
  have hall : ∀ x ∈ atomic_mass.map Prod.fst, shapeB x = true := by decide
  exact hall t (lookup_mem atomic_mass t (by simpa [inTable] using h))

theorem shape_dest {t : List Char} (h : shapeB t = true) :
    ∃ u ls, t = u :: ls ∧ isUpperA u = true ∧ ls.all isLowerA = true := by
  match t with
  | [] => simp [shapeB] at h
  | u :: ls =>
    simp only [shapeB, Bool.and_eq_true] at h
    exact ⟨u, ls, rfl, h.1, h.2⟩

-- ## What the sanitizer keeps: the four shapes of surviving tokens

/-- A digit-run token: nonempty, all digits (Python `str.isdigit`). -/
def isDigTok (t : List Char) : Bool := !t.isEmpty && t.all isDigitA

/-- The shapes a token kept by `clean_copy` can have, given that it came out
of the tokenizer: a single parenthesis, a digit run, or a table symbol. -/
def KeptP (t : List Char) : Prop :=
  t = ['('] ∨ t = [')'] ∨ (t ≠ [] ∧ t.all isDigitA = true) ∨ inTable t = true

theorem keptP_ne_nil {t : List Char} (h : KeptP t) : t ≠ [] := by
  rcases h with rfl | rfl | ⟨hne, _⟩ | ht
  · simp
  · simp
  · exact hne
  · obtain ⟨u, ls, rfl, _, _⟩ := shape_dest (table_shape ht)
    simp

theorem keptP_head_not_lower {t : List Char} (h : KeptP t) :
    ∀ u ts, t = u :: ts → isLowerA u = false := by
  intro u ts he
  subst he
  rcases h with h1 | h1 | ⟨_, hall⟩ | ht
  · rw [List.cons.injEq] at h1
    rw [h1.1]
    decide
  · rw [List.cons.injEq] at h1
    rw [h1.1]
    decide
  · have hd : isDigitA u = true := by
      simp only [List.all_cons, Bool.and_eq_true] at hall
      exact hall.1
    exact digit_not_lower hd
  · obtain ⟨u2, ls2, heq, hu2, _⟩ := shape_dest (table_shape ht)
    rw [List.cons.injEq] at heq
    rw [heq.1]
    exact upper_not_lower hu2

theorem keptP_head_not_digit {t : List Char} (h : KeptP t) (hnd : isDigTok t = false) :
    ∀ u ts, t = u :: ts → isDigitA u = false := by
  intro u ts he
  subst he
  rcases h with h1 | h1 | ⟨_, hall⟩ | ht
  · rw [List.cons.injEq] at h1
    rw [h1.1]
    decide
  · rw [List.cons.injEq] at h1
    rw [h1.1]
    decide
  · exfalso
    simp [isDigTok, hall] at hnd
  · obtain ⟨u2, ls2, heq, hu2, _⟩ := shape_dest (table_shape ht)
    rw [List.cons.injEq] at heq
    rw [heq.1]
    exact upper_not_digit hu2

-- ## `keepTok` on each kept shape

theorem keep_lparen : Molecule.keepTok ['('] = true := by decide

theorem keep_rparen : Molecule.keepTok [')'] = true := by decide

theorem keep_digit {t : List Char} (h1 : t ≠ []) (h2 : t.all isDigitA = true) :
    Molecule.keepTok t = true := by
  have he : t.isEmpty = false := by
    cases t
    · exact absurd rfl h1
    · rfl
  unfold Molecule.keepTok Molecule.is_valid
  by_cases hs : isSubstrOf t ['(', ')'] = true
  · simp [hs]
  · simp [hs, he, h2]

theorem keep_elem {t : List Char} (h : inTable t = true) :
    Molecule.keepTok t = true := by
  obtain ⟨u, ls, rfl, hu, hl⟩ := shape_dest (table_shape h)
  have halpha : (u :: ls).all isAlphaA = true := by
    simp only [List.all_cons, Bool.and_eq_true]
    refine ⟨by simp [isAlphaA, hu], ?_⟩
    rw [List.all_eq_true] at *
    intro x hx
    simp [isAlphaA, hl x hx]
  unfold Molecule.keepTok Molecule.is_valid
  by_cases hs : isSubstrOf (u :: ls) ['(', ')'] = true
  · simp [hs]
  · by_cases hd : (!(u :: ls).isEmpty && (u :: ls).all isDigitA) = true
    · exfalso
      simp only [Bool.and_eq_true, List.all_cons] at hd
      exact absurd hd.2.1 (by simp [upper_not_digit hu])
    · simp [hs, hd, halpha, h]

theorem keep_to_kept {f t : List Char} (hmem : t ∈ gettokens f)
    (hk : Molecule.keepTok t = true) : KeptP t := by
  obtain ⟨hne, hnp⟩ := gettokens_shape hmem
  have he : t.isEmpty = false := by
    cases t
    · exact absurd rfl hne
    · rfl
  unfold Molecule.keepTok Molecule.is_valid at hk
  by_cases hs : isSubstrOf t ['(', ')'] = true
  · rcases substr_parens_cases t hs with h | h | h | h
    · exact absurd h hne
    · exact Or.inl h
    · exact Or.inr (Or.inl h)
    · exact absurd h hnp
  · by_cases hd : t.all isDigitA = true
    · exact Or.inr (Or.inr (Or.inl ⟨hne, hd⟩))
    · by_cases ha : t.all isAlphaA = true
      · by_cases ht : inTable t = true
        · exact Or.inr (Or.inr (Or.inr ht))
        · simp [hs, he, hd, ha, ht] at hk
      · simp [hs, he, hd, ha] at hk

-- ## Concatenations of kept tokens re-tokenize to kept tokens

theorem join_not_lower (ts : List (List Char)) (h : ∀ t ∈ ts, KeptP t) :
    (Molecule.joinToks ts).takeWhile isLowerA = [] ∧
      (Molecule.joinToks ts).dropWhile isLowerA = Molecule.joinToks ts := by
  match ts with
  | [] => exact ⟨rfl, rfl⟩
  | t :: ts2 =>
    have hk := h t (List.mem_cons_self t ts2)
    match t, keptP_ne_nil hk with
    | u :: tr, _ =>
      have hu : isLowerA u = false := keptP_head_not_lower hk u tr rfl
      constructor
      · exact List.takeWhile_cons_of_neg (by simp [hu])
      · exact List.dropWhile_cons_of_neg (by simp [hu])

theorem join_not_digit (ts : List (List Char)) (h : ∀ t ∈ ts, KeptP t)
    (hh : ∀ t2 ts3, ts = t2 :: ts3 → isDigTok t2 = false) :
    (Molecule.joinToks ts).takeWhile isDigitA = [] ∧
      (Molecule.joinToks ts).dropWhile isDigitA = Molecule.joinToks ts := by
  match ts with
  | [] => exact ⟨rfl, rfl⟩
  | t :: ts2 =>
    have hk := h t (List.mem_cons_self t ts2)
    have hnd := hh t ts2 rfl
    match t, keptP_ne_nil hk with
    | u :: tr, _ =>
      have hu : isDigitA u = false := keptP_head_not_digit hk hnd u tr rfl
      constructor
      · exact List.takeWhile_cons_of_neg (by simp [hu])
      · exact List.dropWhile_cons_of_neg (by simp [hu])


/-- Rescanning a concatenation that starts with a digit-run token whose
successor (if any) is not a digit run reproduces that token unchanged. -/
theorem digit_step (t : List Char) (ts2 : List (List Char)) (hne : t ≠ [])
    (hdigall : t.all isDigitA = true) (hall2 : ∀ x ∈ ts2, KeptP x)
    (hnd : ∀ a b, ts2 = a :: b → isDigTok a = false)
    (hrec : Molecule.joinToks ((gettokens (Molecule.joinToks ts2)).filter Molecule.keepTok) =
      Molecule.joinToks ts2) :
    Molecule.joinToks ((gettokens (Molecule.joinToks (t :: ts2))).filter Molecule.keepTok) =
      Molecule.joinToks (t :: ts2) := by
  have hjd := join_not_digit ts2 hall2 hnd
  match t, hne, hdigall with
  | d :: ds, hne2, hdigall2 =>
    have hdds : isDigitA d = true ∧ ds.all isDigitA = true := by
      simpa [List.all_cons, Bool.and_eq_true] using hdigall2
    have hds : ∀ a ∈ ds, isDigitA a = true := List.all_eq_true.1 hdds.2
    show Molecule.joinToks
        ((gettokens (d :: (ds ++ Molecule.joinToks ts2))).filter Molecule.keepTok) = _
    rw [gettokens_cons_digit (ds ++ Molecule.joinToks ts2) hdds.1,
      List.takeWhile_append_of_pos hds, List.dropWhile_append_of_pos hds,
      hjd.1, hjd.2, List.append_nil,
      List.filter_cons_of_pos (keep_digit hne2 hdigall2)]
    show (d :: ds) ++ Molecule.joinToks
        ((gettokens (Molecule.joinToks ts2)).filter Molecule.keepTok) = _
    rw [hrec]
    rfl

theorem clean_join : ∀ (k : Nat) (ts : List (List Char)), ts.length ≤ k →
    (∀ t ∈ ts, KeptP t) →
    Molecule.joinToks ((gettokens (Molecule.joinToks ts)).filter Molecule.keepTok) =
      Molecule.joinToks ts := by
  intro k
  induction k with
  | zero =>
    intro ts hlen _
    match ts with
    | [] => rfl
    | t :: ts2 => simp at hlen
  | succ k ih =>
    intro ts hlen hall
    match ts with
    | [] => rfl
    | t :: ts2 =>
      have hall2 : ∀ x ∈ ts2, KeptP x := fun x hx => hall x (List.mem_cons_of_mem _ hx)
      have hlen2 : ts2.length ≤ k := by simp at hlen; omega
      have hkt : KeptP t := hall t (List.mem_cons_self t ts2)
      rcases hkt with rfl | rfl | ⟨hne, hdigall⟩ | htab
      · -- a left parenthesis token
        show Molecule.joinToks
            ((gettokens ('(' :: Molecule.joinToks ts2)).filter Molecule.keepTok) = _
        rw [gettokens_cons_lparen, List.filter_cons_of_pos keep_lparen]
        show '(' :: Molecule.joinToks
            ((gettokens (Molecule.joinToks ts2)).filter Molecule.keepTok) = _
        rw [ih ts2 hlen2 hall2]
        rfl
      · -- a right parenthesis token
        show Molecule.joinToks
            ((gettokens (')' :: Molecule.joinToks ts2)).filter Molecule.keepTok) = _
        rw [gettokens_cons_rparen, List.filter_cons_of_pos keep_rparen]
        show ')' :: Molecule.joinToks
            ((gettokens (Molecule.joinToks ts2)).filter Molecule.keepTok) = _
        rw [ih ts2 hlen2 hall2]
        rfl
      · -- a digit-run token
        match ts2, hall2, hlen2 with
        | [], hall2, hlen2 =>
          exact digit_step t [] hne hdigall hall2 (by intro a b hc; cases hc)
            (ih [] (by simp) hall2)
        | t2 :: ts3, hall2, hlen2 =>
          by_cases hdig2 : isDigTok t2 = true
          · -- the next token is also a digit run: the two concatenate into a
            -- single (still kept) digit token of the rescan
            have hmerge : KeptP (t ++ t2) := by
              refine Or.inr (Or.inr (Or.inl ⟨by simp [hne], ?_⟩))
              rw [List.all_append, Bool.and_eq_true]
              refine ⟨hdigall, ?_⟩
              simp only [isDigTok, Bool.and_eq_true] at hdig2
              exact hdig2.2
            have hjoin : Molecule.joinToks (t :: t2 :: ts3) =
                Molecule.joinToks ((t ++ t2) :: ts3) := by
              simp [Molecule.joinToks, List.append_assoc]
            rw [hjoin]
            refine ih ((t ++ t2) :: ts3) (by simp at hlen2 ⊢; omega) ?_
            intro x hx
            rcases List.mem_cons.1 hx with rfl | hx2
            · exact hmerge
            · exact hall2 x (List.mem_cons_of_mem _ hx2)
          · -- the next token does not start with a digit
            refine digit_step t (t2 :: ts3) hne hdigall hall2 ?_
              (ih (t2 :: ts3) hlen2 hall2)
            intro a b he
            rw [List.cons.injEq] at he
            rw [← he.1]
            cases hba : isDigTok t2
            · rfl
            · exact absurd hba hdig2
      · -- a table symbol token
        obtain ⟨u, ls, rfl, hu, hlow⟩ := shape_dest (table_shape htab)
        have hjl := join_not_lower ts2 hall2
        have hls : ∀ a ∈ ls, isLowerA a = true := List.all_eq_true.1 hlow
        show Molecule.joinToks
            ((gettokens (u :: (ls ++ Molecule.joinToks ts2))).filter Molecule.keepTok) = _
        rw [gettokens_cons_upper (ls ++ Molecule.joinToks ts2) hu,
          List.takeWhile_append_of_pos hls, List.dropWhile_append_of_pos hls,
          hjl.1, hjl.2, List.append_nil,
          List.filter_cons_of_pos (keep_elem htab)]
        show (u :: ls) ++ Molecule.joinToks
            ((gettokens (Molecule.joinToks ts2)).filter Molecule.keepTok) = _
        rw [ih ts2 hlen2 hall2]
        rfl

-- ## Auxiliary facts for the claims

/-- The tree recursion on the formula `()` loops: the empty group content
resets the target to the whole formula, so no recursion depth returns. -/
theorem buildF_empty_group_loop :
    ∀ n : Nat, buildF ['(', ')'] n [] = none ∧ buildF ['(', ')'] n ['(', ')'] = none := by
  intro n
  induction n with
  | zero => exact ⟨rfl, rfl⟩
  | succ n ih =>
    have hg : findGroups ['(', ')'] = [(RawTok.group [], [])] := by decide
    constructor
    · show buildNodes (buildF ['(', ')'] n)
        (findGroups (if ([] : List Char) = [] then ['(', ')'] else [])) = none
      rw [if_pos rfl, hg]
      simp [buildNodes, ih.1]
    · show buildNodes (buildF ['(', ')'] n)
        (findGroups (if (['(', ')'] : List Char) = [] then ['(', ')'] else ['(', ')'])) = none
      rw [if_neg (by simp), hg]
      simp [buildNodes, ih.1]

/-- All multipliers in a token tree are positive. -/
def multsPos : FTree → Bool
  | .nil => true
  | .sym _ n rest => decide (1 ≤ n) && multsPos rest
  | .grp sub n rest => decide (1 ≤ n) && multsPos sub && multsPos rest

-- ## The claims

/-- C1: the validator distinguishes the two error kinds: `check_symbols` on
the formula `Xx` raises `KeyError` (unknown symbol), on `H2$O` it raises
`ValueError` (invalid token), and the two kinds are distinct values. -/
theorem C1_error_kinds_distinguished :
    Molecule.check_symbols (String.toList "Xx") =
      .error (.keyError (String.toList "bad symbol Xx"))
    ∧ Molecule.check_symbols (String.toList "H2$O") =
      .error (.valueError (String.toList "bad symbol $"))
    ∧ (∀ m1 m2 : List Char, PyErr.keyError m1 ≠ PyErr.valueError m2) :=
  ⟨by decide, by decide, fun _ _ h => PyErr.noConfusion h⟩

/-- C2 (code bug): building the tree of the formula `()` does NOT terminate:
for every recursion depth the builder fails to return (the Python code hits
`RecursionError`), because the empty group content resets the recursion
target to the whole formula; consequently `mass` on `()` surfaces the
recursion error instead of a result. -/
theorem C2_empty_group_diverges :
    (∀ fuel : Nat, buildF (String.toList "()") fuel (String.toList "()") = none)
    ∧ (∀ fuel : Nat, buildF (String.toList "()") fuel [] = none)
    ∧ tokentree (String.toList "()") = none
    ∧ Molecule.mass (String.toList "()") = .error PyErr.recursionError :=
  ⟨fun fuel => (buildF_empty_group_loop fuel).2,
   fun fuel => (buildF_empty_group_loop fuel).1,
   by decide, by decide⟩

/-- C3 (counterexample): on `Ca((OH)2)2` the group is NOT parsed as the
recursive parse of the content between matching parentheses: the actual
tree wraps the parse of `(OH` (up to the first close parenthesis, with the
inner digit `2` as multiplier, dropping the rest), which differs from the
recursive parse of the full content `(OH)2`. -/
theorem C3_nested_group_cex :
    tokentree (String.toList "Ca((OH)2)2") =
      some (.sym ['C', 'a'] 1 (.grp (.sym ['O'] 1 (.sym ['H'] 1 .nil)) 2 .nil))
    ∧ buildF (String.toList "Ca((OH)2)2") 9 (String.toList "(OH)2") =
      some (.grp (.sym ['O'] 1 (.sym ['H'] 1 .nil)) 2 .nil)
    ∧ (FTree.sym ['O'] 1 (.sym ['H'] 1 .nil)) ≠
      (FTree.grp (.sym ['O'] 1 (.sym ['H'] 1 .nil)) 2 .nil) := by
  refine ⟨by decide, by decide, by decide⟩

/-- C3 (amended): a parenthesized group is matched only up to the FIRST
closing parenthesis; when the group content contains no `)` (so that the
first close parenthesis is the matching one), the scanner produces exactly
the group content with its trailing digit run, the builder wraps the
recursive parse of that content as a `grp` node with `numfor` of the digit
run as multiplier, and a missing digit run yields multiplier 1. -/
theorem C3_group_scans_to_first_close :
    (∀ inner rest : List Char, ')' ∉ inner →
      findGroups ('(' :: (inner ++ ')' :: rest)) =
        (RawTok.group inner, rest.takeWhile isDigitA)
          :: findGroups (rest.dropWhile isDigitA))
    ∧ (∀ (r : List Char → Option FTree) (inner ds : List Char)
        (tl : List (RawTok × List Char)),
        buildNodes r ((RawTok.group inner, ds) :: tl) =
          match r inner with
          | none => none
          | some sub => (buildNodes r tl).map (FTree.grp sub (numfor ds)))
    ∧ numfor [] = 1 := by
  refine ⟨?_, fun r inner ds tl => rfl, rfl⟩
  intro inner rest h
  have hall : ∀ a ∈ inner, (decide (a ≠ ')')) = true :=
    fun a ha => decide_eq_true (fun hc => h (hc ▸ ha))
  have hdw : (inner ++ ')' :: rest).dropWhile (· ≠ ')') = ')' :: rest := by
    rw [List.dropWhile_append_of_pos hall]
    exact List.dropWhile_cons_of_neg (by simp)
  have htw : (inner ++ ')' :: rest).takeWhile (· ≠ ')') = inner := by
    rw [List.takeWhile_append_of_pos hall, List.takeWhile_cons_of_neg (by simp),
      List.append_nil]
  have hemp : ((inner ++ ')' :: rest).dropWhile (· ≠ ')')).isEmpty = false := by
    rw [hdw]
    rfl
  rw [findGroups_cons_lparen _ hemp, hdw, htw]
  rfl

/-- C3 (witness for the amended theorem) at the group `(OH)2`. -/
theorem C3_group_scans_to_first_close_witness :
    findGroups ('(' :: (['O', 'H'] ++ ')' :: ['2'])) =
      (RawTok.group ['O', 'H'], List.takeWhile isDigitA ['2'])
        :: findGroups (List.dropWhile isDigitA ['2']) :=
  C3_group_scans_to_first_close.1 ['O', 'H'] ['2'] (by decide)

/-- C4 (counterexample): the builder CAN produce a node with multiplier 0:
the formula `H0` parses to a single symbol node with multiplier 0, so not
every node of every built tree carries a positive multiplier. -/
theorem C4_zero_multiplier_cex :
    tokentree (String.toList "H0") = some (FTree.sym ['H'] 0 FTree.nil)
    ∧ multsPos (FTree.sym ['H'] 0 FTree.nil) = false := by
  refine ⟨by decide, by decide⟩

/-- C4 (amended): a node's multiplier is `numfor` of its digit run: when no
digit run follows the symbol or group the multiplier is 1 (never 0), but an
explicit digit run of value 0 such as in `H0` yields multiplier 0. -/
theorem C4_multiplier_semantics :
    (∀ (r : List Char → Option FTree) (s : List Char)
        (tl : List (RawTok × List Char)),
      buildNodes r ((RawTok.sym s, []) :: tl) = (buildNodes r tl).map (FTree.sym s 1))
    ∧ (∀ (r : List Char → Option FTree) (inner : List Char)
        (tl : List (RawTok × List Char)),
      buildNodes r ((RawTok.group inner, []) :: tl) =
        match r inner with
        | none => none
        | some sub => (buildNodes r tl).map (FTree.grp sub 1))
    ∧ numfor [] = 1
    ∧ tokentree (String.toList "H0") = some (FTree.sym ['H'] 0 FTree.nil)
    ∧ tokentree (String.toList "H") = some (FTree.sym ['H'] 1 FTree.nil) :=
  ⟨fun r s tl => rfl, fun r inner tl => rfl, rfl, by decide, by decide⟩

/-- C5: the mass of `Ca(NO3)2` is exactly 40.078 + 2 × (14.007 + 3 × 15.999)
= 164.086 (so in particular within 1e-6 of 164.086), computed over the tree
as table mass (for symbols) or recursive mass (for groups) times the
multiplier. -/
theorem C5_mass_Ca_NO3_2 :
    Molecule.mass (String.toList "Ca(NO3)2") = .ok (164.086 : ℚ)
    ∧ (164.086 : ℚ) = 40.078 + 2 * (14.007 + 3 * 15.999)
    ∧ |(164.086 : ℚ) - 164.086| ≤ 1e-6 := by
  refine ⟨?_, by norm_num, by norm_num⟩
  show Molecule.mass ['C', 'a', '(', 'N', 'O', '3', ')', '2'] = .ok (164.086 : ℚ)
  have h1 : Molecule.check_symbols ['C', 'a', '(', 'N', 'O', '3', ')', '2'] = .ok true := by
    decide
  have h2 : tokentree ['C', 'a', '(', 'N', 'O', '3', ')', '2'] =
      some (.sym ['C', 'a'] 1 (.grp (.sym ['N'] 1 (.sym ['O'] 3 .nil)) 2 .nil)) := by
    decide
  have h3 : tableMass ['C', 'a'] = some (40.078 : ℚ) := rfl
  have h4 : tableMass ['N'] = some (14.007 : ℚ) := rfl
  have h5 : tableMass ['O'] = some (15.999 : ℚ) := rfl
  simp [Molecule.mass, h1, h2, Molecule.tree_mass, h3, h4, h5]
  norm_num

/-- C6: atom counts of `Be3Al2(SiO3)6`: 18 oxygen, 6 silicon, 3 beryllium
(group multipliers multiply the counts of the nested subtree). -/
theorem C6_atom_counts_beryl :
    Molecule.atoms (String.toList "Be3Al2(SiO3)6") ['O'] = .ok 18
    ∧ Molecule.atoms (String.toList "Be3Al2(SiO3)6") ['S', 'i'] = .ok 6
    ∧ Molecule.atoms (String.toList "Be3Al2(SiO3)6") ['B', 'e'] = .ok 3 := by
  refine ⟨by decide, by decide, by decide⟩

/-- C7: enumerating `H2SO4` yields exactly (H, 2), (O, 4), (S, 1) in that
order: one pair per distinct table symbol among the tokens, sorted
lexicographically, each count computed by the atom counter. -/
theorem C7_enumeration_H2SO4 :
    Molecule.iterElems (String.toList "H2SO4") =
      .ok [(['H'], 2), (['O'], 4), (['S'], 1)] := by
  decide

/-- C8: querying the atom counter for any symbol outside the mass table
(such as `Xx`) fails with `KeyError` on every formula, even when the symbol
does not occur in it and the correct count would be 0. -/
theorem C8_unknown_query_symbol (f symbol : List Char) (h : inTable symbol = false) :
    Molecule.atoms f symbol = .error (.keyError (String.toList "not in periodic table")) := by
  simp [Molecule.atoms, h]

/-- C8 (witness): the formula `Xx` queried for `Xx` itself — the symbol even
occurs in the formula, and the query is still rejected. -/
theorem C8_unknown_query_symbol_witness :
    inTable (String.toList "Xx") = false
    ∧ Molecule.atoms (String.toList "Xx") (String.toList "Xx") =
      .error (.keyError (String.toList "not in periodic table")) :=
  ⟨by decide, C8_unknown_query_symbol _ _ (by decide)⟩

/-- C9: the sanitizer is idempotent: running `clean_copy` a second time
changes nothing, for every formula string. -/
theorem C9_clean_copy_idempotent (f : List Char) :
    Molecule.clean_copy (Molecule.clean_copy f) = Molecule.clean_copy f := by
  show Molecule.joinToks
      ((gettokens (Molecule.joinToks ((gettokens f).filter Molecule.keepTok))).filter
        Molecule.keepTok) =
    Molecule.joinToks ((gettokens f).filter Molecule.keepTok)
  refine clean_join ((gettokens f).filter Molecule.keepTok).length
    ((gettokens f).filter Molecule.keepTok) (le_refl _) ?_
  intro t htm
  rw [List.mem_filter] at htm
  exact keep_to_kept htm.1 htm.2

/-- C10: the empty formula raises nothing: `check_symbols` succeeds over
zero tokens, `mass` returns 0, and `atoms` returns 0 for every symbol that
is in the mass table. -/
theorem C10_empty_formula :
    Molecule.check_symbols [] = .ok true
    ∧ Molecule.mass [] = .ok 0
    ∧ (∀ s : List Char, inTable s = true → Molecule.atoms [] s = .ok 0) := by
  refine ⟨by decide, by decide, ?_⟩
  intro s h
  have ht : tokentree [] = some .nil := by decide
  simp [Molecule.atoms, h, ht, Molecule.tree_count]

/-- C10 (witness): the empty formula queried for hydrogen. -/
theorem C10_empty_formula_witness :
    inTable (String.toList "H") = true ∧ Molecule.atoms [] (String.toList "H") = .ok 0 :=
  ⟨by decide, C10_empty_formula.2.2 _ (by decide)⟩
